import Mathlib

set_option autoImplicit false

/-!
Shallow embedding of the `list-zipper` Rust crate (`src/lib.rs`).

A `VecDeque<T>` is modelled as a `List T` whose head is the deque front:
`push_front` is `List.cons`, `pop_front` splits into head and tail, and
`push_back` appends at the end.  A Rust panic (an `unwrap` of `None` inside
`pop_push`, or `rem_euclid` with divisor zero inside `ith`) is modelled as
`none` in an `Option`-valued result.
-/

variable {T : Type}

/-- Models `push_and_yield`: `n.push_front(t)`. -/
def push_and_yield (n : List T) (t : T) : List T := t :: n

/-- Models `push_back_and_yield`: `n.push_back(t)`. -/
def push_back_and_yield (n : List T) (t : T) : List T := n ++ [t]

/-- Models `reset(nl, pl)`: drain `pl` front-to-back, pushing each element
onto the front of `nl`; returns the final `(nl, pl)` pair. -/
def reset (nl pl : List T) : List T × List T := (pl.foldl push_and_yield nl, [])

/-- Models `pop_push(pop, push)`: pop the front of `pop` and push it onto the
front of `push`; `none` models the `unwrap` panic when `pop` is empty. -/
def pop_push (pop push : List T) : Option (List T × List T) :=
  match pop with
  | [] => none
  | t :: rest => some (rest, t :: push)

/-- Models the `SequenceDirection` enum. -/
inductive SequenceDirection where
  | Original
  | Reverse
deriving DecidableEq

/-- Models `Zipper<T>`: two deques split around the focus. `forward` holds the
focused element (at its front) and the elements after it; `backward` holds the
elements before the focus, nearest first. -/
structure Zipper (T : Type) where
  forward : List T
  backward : List T
deriving DecidableEq

namespace Zipper

/-- Models `Zipper::new`. -/
def new : Zipper T := ⟨[], []⟩

/-- Models `Zipper::size`. -/
def size (z : Zipper T) : Nat := z.forward.length + z.backward.length

/-- Models `Zipper::reset_start`: `reset(&mut self.forward, &mut self.backward)`. -/
def reset_start (z : Zipper T) : Zipper T :=
  ⟨(reset z.forward z.backward).1, (reset z.forward z.backward).2⟩

/-- Models `Zipper::unsafe_reset_end` (renamed here): `reset(&mut self.backward,
&mut self.forward)`, which drains `forward` into `backward` and leaves no focus. -/
def raw_reset_end (z : Zipper T) : Zipper T :=
  ⟨(reset z.backward z.forward).2, (reset z.backward z.forward).1⟩

/-- Models `Zipper::advance_focus`: pop from the deque matching `dir`, push the
element onto the front of the other deque; `none` models the panic. -/
def advance_focus (z : Zipper T) (dir : SequenceDirection) : Option (Zipper T) :=
  match dir with
  | .Original => (pop_push z.forward z.backward).map fun r => ⟨r.1, r.2⟩
  | .Reverse => (pop_push z.backward z.forward).map fun r => ⟨r.2, r.1⟩

/-- Models `Zipper::rotate_stacks`: when the deque matching `dir` is empty,
perform the corresponding full reset, otherwise do nothing. -/
def rotate_stacks (z : Zipper T) (dir : SequenceDirection) : Zipper T :=
  match dir with
  | .Original => if z.forward.isEmpty then z.reset_start else z
  | .Reverse => if z.backward.isEmpty then z.raw_reset_end else z

/-- Models `Zipper::step`. -/
def step (z : Zipper T) (dir : SequenceDirection) : Option (Zipper T) :=
  if z.size = 0 then some z
  else
    match dir with
    | .Original => (z.advance_focus .Original).map (·.rotate_stacks .Original)
    | .Reverse => (z.rotate_stacks .Reverse).advance_focus .Reverse

/-- Models `Zipper::step_forwards`. -/
def step_forwards (z : Zipper T) : Option (Zipper T) := z.step .Original

/-- Models `Zipper::step_backwards`. -/
def step_backwards (z : Zipper T) : Option (Zipper T) := z.step .Reverse

/-- Models `Zipper::reset_end`: the raw end reset followed by one `Reverse` step. -/
def reset_end (z : Zipper T) : Option (Zipper T) := z.raw_reset_end.step .Reverse

/-- Models `Zipper::focus`: `self.forward.front()`. -/
def focus (z : Zipper T) : Option T := z.forward.head?

/-- Models `Zipper::take_current_focus`: pop the front of `forward` and, if
`forward` became empty, drain `backward` back into it. -/
def take_current_focus (z : Zipper T) : Option T × Zipper T :=
  let next := z.forward.head?
  let fw := z.forward.tail
  if fw.isEmpty then (next, ⟨(reset fw z.backward).1, (reset fw z.backward).2⟩)
  else (next, ⟨fw, z.backward⟩)

/-- Models `Zipper::take_previous_focus`: rotate `forward` into `backward` when
`backward` is empty, then `pop_push(backward, forward)` (whose `unwrap` panics,
modelled by the outer `none`, when the zipper is empty) and finally pop the
front of `forward` as the returned value. -/
def take_previous_focus (z : Zipper T) : Option (Option T × Zipper T) :=
  let z1 : Zipper T :=
    if z.backward.isEmpty then ⟨(reset z.backward z.forward).2, (reset z.backward z.forward).1⟩
    else z
  match pop_push z1.backward z1.forward with
  | none => none
  | some r => some (r.2.head?, ⟨r.2.tail, r.1⟩)

/-- Models `Zipper::push_focus`: `self.forward.push_front(elem)`. -/
def push_focus (z : Zipper T) (elem : T) : Zipper T := ⟨elem :: z.forward, z.backward⟩

/-- Models the shared loop of `Zipper::refocus` / `Zipper::refocus_backwards`:
`while let Some(t) = self.step(dir).focus() && !p(t) && counter < self.size()
{ counter += 1 }`.  The first argument of type `Nat` is recursion fuel; every
actual execution terminates within `size + 2` iterations because `counter`
grows by one per iteration and `size` is constant. -/
def refocusLoop (dir : SequenceDirection) (p : T → Bool) :
    Nat → Nat → Zipper T → Option (Zipper T)
  | 0, _, _ => none
  | fuel + 1, counter, z =>
    match z.step dir with
    | none => none
    | some z1 =>
      match z1.focus with
      | none => some z1
      | some t =>
        if p t then some z1
        else if counter < z1.size then refocusLoop dir p fuel (counter + 1) z1
        else some z1

/-- Models `Zipper::refocus`. -/
def refocus (z : Zipper T) (p : T → Bool) : Option (Zipper T) :=
  refocusLoop .Original p (z.size + 2) 0 z

/-- Models `Zipper::refocus_backwards`. -/
def refocus_backwards (z : Zipper T) (p : T → Bool) : Option (Zipper T) :=
  refocusLoop .Reverse p (z.size + 2) 0 z

/-- Models `isize::rem_euclid`; `none` is the division-by-zero panic. -/
def remEuclid (a b : Int) : Option Int :=
  if b = 0 then none else some (a % b)

/-- Models `Zipper::ith`.  The outer `Option` is the panic (the `rem_euclid`
divisor is zero exactly when the zipper is empty); the inner `Option` is the
Rust return value. -/
def ith (z : Zipper T) (i : Int) : Option (Option T) :=
  let count : Int := (z.size : Int)
  match remEuclid (if i < 0 then i + count else i) count with
  | none => none
  | some j =>
    let i1 := j.toNat
    let fw_len := z.forward.length
    let bw_len := z.backward.length
    some (if i1 < fw_len then z.forward[i1]? else z.backward[bw_len - (i1 - fw_len + 1)]?)

/-- Models `FromIterator::from_iter` for `Zipper`: append the elements in order
into `forward`, leaving `backward` empty. -/
def fromList (l : List T) : Zipper T := ⟨l.foldl push_back_and_yield [], []⟩

end Zipper

/-- Models the `ZipperIter` struct. -/
structure ZipperIter (T : Type) where
  zipper : Zipper T
  count : Nat
  cursor : Int
  dir : SequenceDirection

/-- Models `Iterator::next` for `ZipperIter`.  The outer `Option` is the panic
propagated from `ith`; the `Option T` component is the yielded item (`none`
meaning the iteration has ended). -/
def ZipperIter.next (it : ZipperIter T) : Option (Option T × ZipperIter T) :=
  if it.cursor ≤ -1 * (it.count : Int) ∨ it.cursor ≥ (it.count : Int) then some (none, it)
  else
    let i := it.cursor
    let it1 : ZipperIter T :=
      { it with cursor := it.cursor + match it.dir with | .Original => 1 | .Reverse => -1 }
    match it.zipper.ith i with
    | none => none
    | some r => some (r, it1)

/-- Models `Zipper::iter`. -/
def Zipper.iter (z : Zipper T) : ZipperIter T := ⟨z, z.size, 0, .Original⟩

/-- Models collecting an iterator into a vector: call `next` until it yields
`none`.  The `Nat` argument is recursion fuel; `count + 1` is always enough
because the cursor strictly increases towards `count`. -/
def collectIter : Nat → ZipperIter T → Option (List T)
  | 0, _ => none
  | fuel + 1, it =>
    match it.next with
    | none => none
    | some (none, _) => some []
    | some (some t, it1) => (collectIter fuel it1).map (t :: ·)

/-- Models `zipper.iter().collect::<Vec<_>>()`. -/
def Zipper.iterCollect (z : Zipper T) : Option (List T) :=
  collectIter (z.size + 1) z.iter

/-- Abstraction function: the elements of the zipper in iteration order,
starting at the focus. -/
def Zipper.toList (z : Zipper T) : List T := z.forward ++ z.backward.reverse

/-- The representation invariant of the data model: whenever the zipper is
non-empty, `forward` is non-empty (its front being the focus); equivalently,
`forward` is empty only when the whole zipper is empty. -/
def Zipper.Wf (z : Zipper T) : Prop := z.forward = [] → z.backward = []

instance {T : Type} [DecidableEq T] (z : Zipper T) : Decidable z.Wf := by
  unfold Zipper.Wf; infer_instance

/-- Iterated `Zipper::step` in a fixed direction. -/
def Zipper.stepN (dir : SequenceDirection) : Nat → Zipper T → Option (Zipper T)
  | 0, z => some z
  | k + 1, z => (z.step dir).bind (stepN dir k)

/-! ### Basic rewriting lemmas for the deque helpers -/

theorem foldl_push_and_yield (pl : List T) :
    ∀ nl : List T, pl.foldl push_and_yield nl = pl.reverse ++ nl := by
  induction pl with
  | nil => intro nl; simp
  | cons h t ih => intro nl; simp [List.foldl, push_and_yield, ih]

theorem reset_eq (nl pl : List T) : reset nl pl = (pl.reverse ++ nl, []) := by
  simp [reset, foldl_push_and_yield]

theorem foldl_push_back_and_yield (l : List T) :
    ∀ acc : List T, l.foldl push_back_and_yield acc = acc ++ l := by
  induction l with
  | nil => intro acc; simp
  | cons h t ih => intro acc; simp [List.foldl, push_back_and_yield, ih]

theorem fromList_eq (l : List T) : Zipper.fromList l = ⟨l, []⟩ := by
  simp [Zipper.fromList, foldl_push_back_and_yield]

theorem reset_start_eq (z : Zipper T) :
    z.reset_start = ⟨z.backward.reverse ++ z.forward, []⟩ := by
  simp [Zipper.reset_start, reset_eq]

theorem raw_reset_end_eq (z : Zipper T) :
    z.raw_reset_end = ⟨[], z.forward.reverse ++ z.backward⟩ := by
  simp [Zipper.raw_reset_end, reset_eq]

theorem length_toList (z : Zipper T) : z.toList.length = z.size := by
  simp [Zipper.toList, Zipper.size]

theorem wf_forward_ne (z : Zipper T) (hwf : z.Wf) (h : z.size ≠ 0) : z.forward ≠ [] := by
  intro hf
  exact h (by simp [Zipper.size, hf, hwf hf])

theorem focus_mem (z : Zipper T) (t : T) (h : z.focus = some t) : t ∈ z.toList := by
  cases hf : z.forward with
  | nil => simp [Zipper.focus, hf] at h
  | cons a l =>
    simp [Zipper.focus, hf] at h
    simp [Zipper.toList, hf, h]

theorem focus_eq_head (z : Zipper T) (hwf : z.Wf) : z.focus = z.toList.head? := by
  cases hf : z.forward with
  | nil => simp [Zipper.focus, Zipper.toList, hf, hwf hf]
  | cons a l => simp [Zipper.focus, Zipper.toList, hf]

theorem focus_some (z : Zipper T) (hwf : z.Wf) (h : 0 < z.size) :
    ∃ t, z.focus = some t ∧ t ∈ z.toList := by
  cases hf : z.forward with
  | nil => exact absurd hf (wf_forward_ne z hwf (by omega))
  | cons a l =>
    refine ⟨a, by simp [Zipper.focus, hf], ?_⟩
    simp [Zipper.toList, hf]

/-! ### Normal forms of `step` -/

theorem step_of_size_zero (z : Zipper T) (d : SequenceDirection) (h : z.size = 0) :
    z.step d = some z := by
  simp [Zipper.step, h]

theorem step_original_eq_nil (f : T) (bs : List T) :
    (Zipper.mk [f] bs).step .Original = some (Zipper.mk (bs.reverse ++ [f]) []) := by
  simp [Zipper.step, Zipper.size, Zipper.advance_focus, pop_push, Zipper.rotate_stacks,
    reset_start_eq]

theorem step_original_eq_cons (f g : T) (gs bs : List T) :
    (Zipper.mk (f :: g :: gs) bs).step .Original = some (Zipper.mk (g :: gs) (f :: bs)) := by
  simp [Zipper.step, Zipper.size, Zipper.advance_focus, pop_push, Zipper.rotate_stacks]

theorem step_reverse_eq_cons (fw : List T) (b : T) (bs : List T) :
    (Zipper.mk fw (b :: bs)).step .Reverse = some (Zipper.mk (b :: fw) bs) := by
  simp [Zipper.step, Zipper.size, Zipper.advance_focus, pop_push, Zipper.rotate_stacks]

theorem step_reverse_eq_nil (fw : List T) (x : T) (xs : List T) (h : fw.reverse = x :: xs) :
    (Zipper.mk fw ([] : List T)).step .Reverse = some (Zipper.mk [x] xs) := by
  have hfw : fw ≠ [] := by
    intro e
    rw [e] at h
    simp at h
  have hl : fw.length ≠ 0 := by simpa using hfw
  simp [Zipper.step, Zipper.size, Zipper.advance_focus, pop_push, Zipper.rotate_stacks,
    raw_reset_end_eq, hl, h]

/-- One `Original` step rotates the abstract list one position forward. -/
theorem step_original_toList (z : Zipper T) (hwf : z.Wf) :
    ∃ z1, z.step .Original = some z1 ∧ z1.Wf ∧ z1.size = z.size ∧
      z1.toList = z.toList.rotate 1 := by
  cases hf : z.forward with
  | nil =>
    have hb := hwf hf
    refine ⟨z, step_of_size_zero z _ (by simp [Zipper.size, hf, hb]), hwf, rfl, ?_⟩
    simp [Zipper.toList, hf, hb]
  | cons f fs =>
    obtain ⟨fw, bw⟩ := z
    simp only at hf
    subst hf
    cases fs with
    | nil =>
      refine ⟨⟨bw.reverse ++ [f], []⟩, step_original_eq_nil f bw, ?_,
        by simp [Zipper.size]; omega, ?_⟩
      · intro h
        simp at h
      · simp [Zipper.toList, List.rotate_cons_succ]
    | cons g gs =>
      refine ⟨⟨g :: gs, f :: bw⟩, step_original_eq_cons f g gs bw, ?_,
        by simp [Zipper.size]; omega, ?_⟩
      · intro h
        simp at h
      · simp [Zipper.toList, List.rotate_cons_succ, List.append_assoc]

/-- Rotating a snoc list by the length of its initial segment brings the last
element to the front. -/
theorem rotate_snoc_length (l : List T) (b : T) :
    (l ++ [b]).rotate l.length = b :: l := by
  have h : l.length ≤ (l ++ [b]).length := by simp
  rw [List.rotate_eq_drop_append_take h]
  simp

/-- One `Reverse` step rotates the abstract list `size - 1` positions forward
(one position backward). -/
theorem step_reverse_toList (z : Zipper T) (hwf : z.Wf) :
    ∃ z1, z.step .Reverse = some z1 ∧ z1.Wf ∧ z1.size = z.size ∧
      z1.toList = z.toList.rotate (z.size - 1) := by
  cases hb : z.backward with
  | cons b bs =>
    obtain ⟨fw, bw⟩ := z
    simp only at hb
    subst hb
    refine ⟨⟨b :: fw, bs⟩, step_reverse_eq_cons fw b bs, by intro h; simp at h,
      by simp [Zipper.size]; omega, ?_⟩
    have hlen : (fw ++ bs.reverse).length = Zipper.size ⟨fw, b :: bs⟩ - 1 := by
      simp [Zipper.size]
    rw [← hlen]
    have : Zipper.toList ⟨fw, b :: bs⟩ = (fw ++ bs.reverse) ++ [b] := by
      simp [Zipper.toList]
    rw [this, rotate_snoc_length]
    simp [Zipper.toList]
  | nil =>
    cases hf : z.forward with
    | nil =>
      refine ⟨z, step_of_size_zero z _ (by simp [Zipper.size, hf, hb]), hwf, rfl, ?_⟩
      simp [Zipper.toList, hf, hb]
    | cons f fs =>
      obtain ⟨fw, bw⟩ := z
      simp only at hf hb
      subst hf
      subst hb
      obtain ⟨x, xs, hrev⟩ : ∃ x xs, (f :: fs).reverse = x :: xs := by
        cases h : (f :: fs).reverse with
        | nil => exact absurd (List.reverse_eq_nil_iff.mp h) (by simp)
        | cons x xs => exact ⟨x, xs, rfl⟩
      refine ⟨⟨[x], xs⟩, step_reverse_eq_nil _ x xs hrev, by intro h; simp at h, ?_, ?_⟩
      · have := congrArg List.length hrev
        simp at this
        simp [Zipper.size]
        omega
      · have hfs : f :: fs = xs.reverse ++ [x] := by
          have := congrArg List.reverse hrev
          simpa using this
        have hlen : xs.reverse.length = Zipper.size ⟨f :: fs, ([] : List T)⟩ - 1 := by
          have := congrArg List.length hfs
          simp at this
          simp [Zipper.size]
          omega
        rw [← hlen]
        have : Zipper.toList ⟨f :: fs, ([] : List T)⟩ = xs.reverse ++ [x] := by
          simp [Zipper.toList, hfs]
        rw [this, rotate_snoc_length]
        simp [Zipper.toList]

/-! ### Iterated steps -/

theorem step_some (z : Zipper T) (d : SequenceDirection) (hwf : z.Wf) :
    ∃ z1, z.step d = some z1 ∧ z1.Wf ∧ z1.size = z.size ∧
      ∀ x, x ∈ z1.toList ↔ x ∈ z.toList := by
  cases d with
  | Original =>
    obtain ⟨z1, h1, h2, h3, h4⟩ := step_original_toList z hwf
    exact ⟨z1, h1, h2, h3, fun x => by rw [h4]; exact List.mem_rotate⟩
  | Reverse =>
    obtain ⟨z1, h1, h2, h3, h4⟩ := step_reverse_toList z hwf
    exact ⟨z1, h1, h2, h3, fun x => by rw [h4]; exact List.mem_rotate⟩

theorem stepN_succ (d : SequenceDirection) (k : Nat) (z : Zipper T) :
    Zipper.stepN d (k + 1) z = (z.step d).bind (Zipper.stepN d k) := rfl

theorem stepN_one (d : SequenceDirection) (z : Zipper T) :
    Zipper.stepN d 1 z = z.step d := by
  cases h : z.step d <;> simp [Zipper.stepN, h]

theorem stepN_original_toList (k : Nat) :
    ∀ z : Zipper T, z.Wf →
      ∃ z1, Zipper.stepN .Original k z = some z1 ∧ z1.Wf ∧ z1.size = z.size ∧
        z1.toList = z.toList.rotate k := by
  induction k with
  | zero => exact fun z hwf => ⟨z, rfl, hwf, rfl, (z.toList.rotate_zero).symm⟩
  | succ k ih =>
    intro z hwf
    obtain ⟨z1, h1, h2, h3, h4⟩ := step_original_toList z hwf
    obtain ⟨z2, g1, g2, g3, g4⟩ := ih z1 h2
    refine ⟨z2, ?_, g2, by omega, ?_⟩
    · rw [stepN_succ, h1]
      simpa using g1
    · rw [g4, h4, List.rotate_rotate, Nat.add_comm]

theorem stepN_reverse_toList (k : Nat) :
    ∀ z : Zipper T, z.Wf →
      ∃ z1, Zipper.stepN .Reverse k z = some z1 ∧ z1.Wf ∧ z1.size = z.size ∧
        z1.toList = z.toList.rotate (k * (z.size - 1)) := by
  induction k with
  | zero => exact fun z hwf => ⟨z, rfl, hwf, rfl, by simp⟩
  | succ k ih =>
    intro z hwf
    obtain ⟨z1, h1, h2, h3, h4⟩ := step_reverse_toList z hwf
    obtain ⟨z2, g1, g2, g3, g4⟩ := ih z1 h2
    refine ⟨z2, ?_, g2, by omega, ?_⟩
    · rw [stepN_succ, h1]
      simpa using g1
    · rw [g4, h3, h4, List.rotate_rotate, Nat.succ_mul, Nat.add_comm]

theorem head?_rotate_mod (l : List T) (hne : l ≠ []) (k : Nat) :
    (l.rotate k).head? = l[k % l.length]? := by
  rw [← List.rotate_mod, List.head?_rotate (Nat.mod_lt _ (List.length_pos.mpr hne))]

/-! ### The refocus loop -/

theorem step_props (z zk : Zipper T) (d : SequenceDirection) (hwf : z.Wf)
    (h : z.step d = some zk) :
    zk.Wf ∧ zk.size = z.size ∧ ∀ x, x ∈ zk.toList ↔ x ∈ z.toList := by
  obtain ⟨z1, h1, h2, h3, h4⟩ := step_some z d hwf
  have e : zk = z1 := by
    have := h.symm.trans h1
    exact Option.some.inj this
  subst e
  exact ⟨h2, h3, h4⟩

/-- If some step in the next `r + 1` iterations reaches a state whose focus
satisfies `p`, the loop stops with a focus satisfying `p`. -/
theorem refocusLoop_finds (d : SequenceDirection) (p : T → Bool) :
    ∀ (r c : Nat) (z : Zipper T) (fuel : Nat),
      z.Wf → 0 < z.size → c + r = z.size → r + 2 ≤ fuel →
      (∃ k zk t, 1 ≤ k ∧ k ≤ r + 1 ∧ Zipper.stepN d k z = some zk ∧
        zk.focus = some t ∧ p t = true) →
      ∃ z1 t, Zipper.refocusLoop d p fuel c z = some z1 ∧ z1.focus = some t ∧ p t = true ∧
        t ∈ z.toList := by
  intro r
  induction r with
  | zero =>
    intro c z fuel hwf h0 hc hfuel hex
    obtain ⟨k, zk, t, hk1, hk2, hstepk, hfoc, hpt⟩ := hex
    have hk : k = 1 := by omega
    subst hk
    rw [stepN_one] at hstepk
    obtain ⟨fuel1, rfl⟩ : ∃ f1, fuel = f1 + 1 := ⟨fuel - 1, by omega⟩
    obtain ⟨hwfk, hszk, hmem⟩ := step_props z zk d hwf hstepk
    refine ⟨zk, t, ?_, hfoc, hpt, (hmem t).mp (focus_mem zk t hfoc)⟩
    simp only [Zipper.refocusLoop, hstepk, hfoc, hpt]
    simp
  | succ r ih =>
    intro c z fuel hwf h0 hc hfuel hex
    obtain ⟨k, zk, t, hk1, hk2, hstepk, hfoc, hpt⟩ := hex
    obtain ⟨fuel1, rfl⟩ : ∃ f1, fuel = f1 + 1 := ⟨fuel - 1, by omega⟩
    obtain ⟨z1, hstep, hwf1, hsz1, hmem⟩ := step_some z d hwf
    obtain ⟨t1, hfoc1, hmem1⟩ := focus_some z1 hwf1 (by omega)
    by_cases hp : p t1 = true
    · refine ⟨z1, t1, ?_, hfoc1, hp, (hmem t1).mp hmem1⟩
      simp only [Zipper.refocusLoop, hstep, hfoc1, hp]
      simp
    · have hpf : p t1 = false := by simpa using hp
      have hk2' : 2 ≤ k := by
        by_contra hlt
        have hk : k = 1 := by omega
        subst hk
        rw [stepN_one, hstep] at hstepk
        have e : z1 = zk := Option.some.inj hstepk
        subst e
        rw [hfoc1] at hfoc
        have e2 : t1 = t := Option.some.inj hfoc
        subst e2
        exact absurd hpt (by simp [hpf])
      have hclt : c < z1.size := by omega
      have hwit : ∃ k' zk' t', 1 ≤ k' ∧ k' ≤ r + 1 ∧ Zipper.stepN d k' z1 = some zk' ∧
          zk'.focus = some t' ∧ p t' = true := by
        refine ⟨k - 1, zk, t, by omega, by omega, ?_, hfoc, hpt⟩
        have hk' : k = (k - 1) + 1 := by omega
        rw [hk', stepN_succ, hstep] at hstepk
        simpa using hstepk
      obtain ⟨z2, t2, hloop, hf2, hp2, hm2⟩ :=
        ih (c + 1) z1 fuel1 hwf1 (by omega) (by omega) (by omega) hwit
      refine ⟨z2, t2, ?_, hf2, hp2, (hmem t2).mp hm2⟩
      simp only [Zipper.refocusLoop, hstep, hfoc1, hpf]
      simp [hclt, hloop]

/-- With a predicate matching nothing, the loop performs exactly `r + 1` steps
(when entered with `counter + r = size`). -/
theorem refocusLoop_nomatch (d : SequenceDirection) (p : T → Bool) :
    ∀ (r c : Nat) (z : Zipper T) (fuel : Nat),
      z.Wf → 0 < z.size → c + r = z.size → r + 2 ≤ fuel →
      (∀ x ∈ z.toList, p x = false) →
      Zipper.refocusLoop d p fuel c z = Zipper.stepN d (r + 1) z := by
  intro r
  induction r with
  | zero =>
    intro c z fuel hwf h0 hc hfuel hno
    obtain ⟨fuel1, rfl⟩ : ∃ f1, fuel = f1 + 1 := ⟨fuel - 1, by omega⟩
    obtain ⟨z1, hstep, hwf1, hsz1, hmem⟩ := step_some z d hwf
    obtain ⟨t1, hfoc1, hmem1⟩ := focus_some z1 hwf1 (by omega)
    have hpf : p t1 = false := hno t1 ((hmem t1).mp hmem1)
    have hcns : ¬ c < z1.size := by omega
    rw [stepN_one, hstep]
    simp only [Zipper.refocusLoop, hstep, hfoc1, hpf]
    simp [hcns]
  | succ r ih =>
    intro c z fuel hwf h0 hc hfuel hno
    obtain ⟨fuel1, rfl⟩ : ∃ f1, fuel = f1 + 1 := ⟨fuel - 1, by omega⟩
    obtain ⟨z1, hstep, hwf1, hsz1, hmem⟩ := step_some z d hwf
    obtain ⟨t1, hfoc1, hmem1⟩ := focus_some z1 hwf1 (by omega)
    have hpf : p t1 = false := hno t1 ((hmem t1).mp hmem1)
    have hclt : c < z1.size := by omega
    have hno1 : ∀ x ∈ z1.toList, p x = false := fun x hx => hno x ((hmem x).mp hx)
    have hrec := ih (c + 1) z1 fuel1 hwf1 (by omega) (by omega) (by omega) hno1
    rw [stepN_succ, hstep]
    simp only [Zipper.refocusLoop, hstep, hfoc1, hpf]
    simp [hclt, hrec]

/-! ### Characterizing `ith` and the iterator -/

theorem shift_emod (i n : Int) : (if i < 0 then i + n else i) % n = i % n := by
  split
  · have := Int.add_mul_emod_self_left i n 1
    rw [mul_one] at this
    exact this
  · rfl

theorem ith_index_eq (z : Zipper T) (j : Nat) (hj : j < z.size) :
    (if j < z.forward.length then z.forward[j]? else
      z.backward[z.backward.length - (j - z.forward.length + 1)]?) = z.toList[j]? := by
  by_cases hjf : j < z.forward.length
  · rw [if_pos hjf, Zipper.toList, List.getElem?_append_left hjf]
  · rw [if_neg hjf]
    push_neg at hjf
    have hsz : j < z.forward.length + z.backward.length := by
      simpa [Zipper.size] using hj
    have h1 : z.toList[j]? = z.backward.reverse[j - z.forward.length]? := by
      rw [Zipper.toList, List.getElem?_append_right (by omega)]
    have hlt : j - z.forward.length < z.backward.length := by omega
    rw [h1, List.getElem?_reverse hlt]
    congr 1
    omega

theorem ith_eq (z : Zipper T) (h0 : 0 < z.size) (i : Int) :
    z.ith i = some (z.toList[(i % (z.size : Int)).toNat]?) := by
  have hcz : ¬ ((z.size : Int) = 0) := by
    simp only [ne_eq, Nat.cast_eq_zero]
    omega
  have h1 : 0 ≤ i % (z.size : Int) := Int.emod_nonneg i (by exact_mod_cast hcz)
  have h2 : i % (z.size : Int) < (z.size : Int) := Int.emod_lt_of_pos i (by exact_mod_cast h0)
  have hlt : (i % (z.size : Int)).toNat < z.size := by omega
  simp only [Zipper.ith, Zipper.remEuclid, hcz, if_false, shift_emod]
  rw [ith_index_eq z _ hlt]

theorem ith_isSome (z : Zipper T) (h0 : 0 < z.size) (i : Int) :
    ∃ t, z.ith i = some (some t) := by
  have hcz : ¬ ((z.size : Int) = 0) := by
    simp only [ne_eq, Nat.cast_eq_zero]
    omega
  have h1 : 0 ≤ i % (z.size : Int) := Int.emod_nonneg i (by exact_mod_cast hcz)
  have h2 : i % (z.size : Int) < (z.size : Int) := Int.emod_lt_of_pos i (by exact_mod_cast h0)
  have hlt : (i % (z.size : Int)).toNat < z.toList.length := by
    rw [length_toList]
    omega
  exact ⟨z.toList[(i % (z.size : Int)).toNat], by rw [ith_eq z h0 i, List.getElem?_eq_getElem hlt]⟩

theorem collectIter_drop (z : Zipper T) (h0 : 0 < z.size) :
    ∀ (r c : Nat), c + r = z.size →
      collectIter (r + 1) ⟨z, z.size, (c : Int), .Original⟩ = some (z.toList.drop c) := by
  intro r
  induction r with
  | zero =>
    intro c hc
    have hcond : ((c : Int) ≤ -1 * (z.size : Int) ∨ (c : Int) ≥ (z.size : Int)) := by
      right
      omega
    simp only [collectIter, ZipperIter.next, if_pos hcond]
    rw [List.drop_eq_nil_of_le (by rw [length_toList]; omega)]
  | succ r ih =>
    intro c hc
    have hclt : c < z.size := by omega
    have hcond : ¬ ((c : Int) ≤ -1 * (z.size : Int) ∨ (c : Int) ≥ (z.size : Int)) := by
      push_neg
      omega
    have hcl : c < z.toList.length := by rw [length_toList]; omega
    have hith : z.ith (c : Int) = some (some (z.toList.get ⟨c, hcl⟩)) := by
      rw [ith_eq z h0]
      have hmod : ((c : Int) % (z.size : Int)).toNat = c := by
        rw [Int.emod_eq_of_lt (by omega) (by omega)]
        simp
      rw [hmod, List.getElem?_eq_getElem hcl]
      simp
    have hcast : (c : Int) + 1 = ((c + 1 : Nat) : Int) := by push_cast; ring
    have hih := ih (c + 1) (by omega)
    conv_lhs => rw [collectIter]
    simp only [ZipperIter.next, if_neg hcond, hith]
    rw [hcast, hih]
    simp [List.getElem_cons_drop]

theorem iterCollect_eq (z : Zipper T) : z.iterCollect = some z.toList := by
  by_cases h : z.size = 0
  · have hf : z.forward = [] := by
      have := h
      simp only [Zipper.size] at this
      exact List.length_eq_zero.mp (by omega)
    have hb : z.backward = [] := by
      have := h
      simp only [Zipper.size] at this
      exact List.length_eq_zero.mp (by omega)
    simp [Zipper.iterCollect, Zipper.iter, h, collectIter, ZipperIter.next, Zipper.toList, hf, hb]
  · have h0 : 0 < z.size := by omega
    have hdrop := collectIter_drop z h0 z.size 0 (by omega)
    simp only [Zipper.iterCollect, Zipper.iter]
    simpa using hdrop

/-! ### Arithmetic helper for the backward scan -/

theorem rev_rotate_mod (n m : Nat) (h0 : 0 < n) (hm : m < n) :
    ((if m = 0 then n else n - m) * (n - 1)) % n = m := by
  split
  · rename_i he
    subst he
    exact Nat.mul_mod_right n (n - 1)
  · rename_i he
    have hm1 : 1 ≤ m := Nat.pos_of_ne_zero he
    have hkey : (n - m) * (n - 1) = m + n * (n - m - 1) := by
      zify [show m ≤ n from hm.le, show 1 ≤ n from h0, show 1 ≤ n - m from by omega]
      ring
    rw [hkey, Nat.add_mul_mod_self_left, Nat.mod_eq_of_lt hm]

/-! ### The claims -/

/-- Claim C1: building a zipper from a finite sequence `S` (focus on the first
element), stepping forward `k` times and collecting `iter()` yields exactly the
rotation of `S` starting at index `k mod |S|` (which is `List.rotate S k`). -/
theorem c1_step_then_iter_is_rotation (S : List T) (k : Nat) :
    (Zipper.stepN .Original k (Zipper.fromList S)).bind Zipper.iterCollect =
      some (S.rotate k) := by
  have hwf : (Zipper.fromList S).Wf := by
    rw [fromList_eq]
    intro _
    rfl
  have hto : (Zipper.fromList S).toList = S := by
    rw [fromList_eq]
    simp [Zipper.toList]
  obtain ⟨z1, h1, _, _, h4⟩ := stepN_original_toList k (Zipper.fromList S) hwf
  rw [h1, Option.some_bind, iterCollect_eq z1, h4, hto]

/-- Claim C2 (divergence): on the empty zipper, `focus` returns `none`,
`step` is a no-op and `take_current_focus` returns `none`, as the claim says;
but `take_previous_focus` and `ith` panic (the two final `none`s are the panic
markers of the model: the `unwrap` of `None` inside `pop_push`, and
`rem_euclid` with divisor `0`), contrary to the claim. -/
theorem c2_empty_zipper_ops :
    (Zipper.mk ([] : List Nat) []).focus = none ∧
    (Zipper.mk ([] : List Nat) []).step .Original = some (Zipper.mk [] []) ∧
    (Zipper.mk ([] : List Nat) []).step .Reverse = some (Zipper.mk [] []) ∧
    (Zipper.mk ([] : List Nat) []).take_current_focus = (none, Zipper.mk [] []) ∧
    (Zipper.mk ([] : List Nat) []).take_previous_focus = none ∧
    (Zipper.mk ([] : List Nat) []).ith 0 = none := by
  decide

/-- Claim C3 (divergence): `take_previous_focus` on the two-element zipper
built from `[0, 1]` (a well-formed state) returns the correct element `1` but
leaves the state `⟨[], [0]⟩`, which has size `1` yet an empty `forward` deque:
the core invariant is broken, the focus is gone, and a subsequent forward step
panics. -/
theorem c3_take_previous_breaks_invariant :
    (Zipper.fromList [0, 1]).Wf ∧
    (Zipper.fromList [0, 1]).take_previous_focus = some (some 1, Zipper.mk [] [0]) ∧
    0 < (Zipper.mk ([] : List Nat) [0]).size ∧
    ¬ (Zipper.mk ([] : List Nat) [0]).Wf ∧
    (Zipper.mk ([] : List Nat) [0]).step .Original = none := by
  decide

/-- Claim C4 (divergence): on the zipper built from `[0, 1, 2]` (focus `0`,
`backward` empty), `take_previous_focus` removes and returns the correct
predecessor `2`, but the focus is NOT unchanged: the resulting state has no
focus at all. -/
theorem c4_take_previous_changes_focus :
    (Zipper.fromList [0, 1, 2]).focus = some 0 ∧
    (Zipper.fromList [0, 1, 2]).take_previous_focus = some (some 2, Zipper.mk [] [1, 0]) ∧
    (Zipper.mk ([] : List Nat) [1, 0]).focus = none := by
  decide

/-- Claim C5 (counterexample): on the zipper built from `[0, 1]` with a
predicate matching nothing, `refocus` does NOT leave the focus at the
`size`-th stepped position: after `size` forward steps the focus would be back
at `0`, but `refocus` leaves it at `1`. -/
theorem c5_counterexample :
    ((Zipper.fromList [0, 1]).toList.countP (fun _ => false) = 0) ∧
    ((Zipper.fromList [0, 1]).refocus fun _ => false).bind Zipper.focus ≠
      (Zipper.stepN .Original (Zipper.fromList [0, 1]).size
        (Zipper.fromList [0, 1])).bind Zipper.focus := by
  decide

/-- Claim C5 (amended): for a non-empty well-formed zipper and a predicate
matching no element, `refocus` performs exactly `size + 1` forward steps:
its result is the state after `size + 1` steps, one step past the original
focus. -/
theorem c5_refocus_nomatch (z : Zipper T) (p : T → Bool) (hwf : z.Wf) (h0 : 0 < z.size)
    (hno : ∀ x ∈ z.toList, p x = false) :
    z.refocus p = Zipper.stepN .Original (z.size + 1) z := by
  have h := refocusLoop_nomatch .Original p z.size 0 z (z.size + 2) hwf h0 (by omega)
    (by omega) hno
  simpa [Zipper.refocus] using h

/-- Witness for the amended claim C5 at the concrete input `[0, 1]`. -/
theorem c5_refocus_nomatch_witness :
    (Zipper.fromList [0, 1]).Wf ∧ 0 < (Zipper.fromList [0, 1]).size ∧
    (Zipper.fromList [0, 1]).refocus (fun _ => false) =
      Zipper.stepN .Original ((Zipper.fromList [0, 1]).size + 1) (Zipper.fromList [0, 1]) :=
  ⟨by decide, by decide,
    c5_refocus_nomatch (Zipper.fromList [0, 1]) (fun _ => false) (by decide) (by decide)
      (by decide)⟩

/-- Claim C6 (counterexample): with the predicate matching the two elements `1`
and `3` of the zipper built from `[0, 1, 2, 3]`, `refocus` stops on `1` but
`refocus_backwards` stops on `3`: they do not converge to the same focused
element even though the predicate matches at least one element. -/
theorem c6_counterexample :
    (0 < (Zipper.fromList [0, 1, 2, 3]).toList.countP fun x => x == 1 || x == 3) ∧
    ((Zipper.fromList [0, 1, 2, 3]).refocus fun x => x == 1 || x == 3).bind Zipper.focus ≠
      ((Zipper.fromList [0, 1, 2, 3]).refocus_backwards fun x => x == 1 || x == 3).bind
        Zipper.focus := by
  decide

/-- Claim C6 (amended): for a non-empty well-formed zipper and a predicate
matched by EXACTLY ONE element, `refocus` and `refocus_backwards` both succeed
and leave the zipper focused on that same element. -/
theorem c6_unique_match_agree (z : Zipper T) (p : T → Bool) (hwf : z.Wf) (h0 : 0 < z.size)
    (huniq : z.toList.countP p = 1) :
    ∃ z1 z2 t, z.refocus p = some z1 ∧ z.refocus_backwards p = some z2 ∧
      z1.focus = some t ∧ z2.focus = some t ∧ p t = true := by
  obtain ⟨u, hfu⟩ : ∃ u, z.toList.filter p = [u] := by
    rw [List.countP_eq_length_filter] at huniq
    exact List.length_eq_one.mp huniq
  have hu_mem : u ∈ z.toList ∧ p u = true := by
    have hmem : u ∈ z.toList.filter p := by
      rw [hfu]
      simp
    simpa using List.mem_filter.mp hmem
  obtain ⟨m, hm, hum⟩ := List.getElem_of_mem hu_mem.1
  have hmn : m < z.size := by
    rw [← length_toList]
    exact hm
  have hne : z.toList ≠ [] := by
    intro h
    rw [h] at hm
    simp at hm
  have huval : ∀ t, t ∈ z.toList → p t = true → t = u := by
    intro t htm htp
    have hmem : t ∈ z.toList.filter p := List.mem_filter.mpr ⟨htm, htp⟩
    rw [hfu] at hmem
    simpa using hmem
  have hkf : ∃ k zk t, 1 ≤ k ∧ k ≤ z.size + 1 ∧ Zipper.stepN .Original k z = some zk ∧
      zk.focus = some t ∧ p t = true := by
    obtain ⟨zk, hstep, hwfk, hszk, htok⟩ :=
      stepN_original_toList (if m = 0 then z.size else m) z hwf
    refine ⟨if m = 0 then z.size else m, zk, u, by split <;> omega, by split <;> omega,
      hstep, ?_, hu_mem.2⟩
    rw [focus_eq_head zk hwfk, htok, head?_rotate_mod _ hne]
    have hmod : (if m = 0 then z.size else m) % z.toList.length = m := by
      rw [length_toList]
      split
      · rename_i he
        rw [Nat.mod_self]
        omega
      · exact Nat.mod_eq_of_lt hmn
    rw [hmod, List.getElem?_eq_getElem hm, hum]
  obtain ⟨z1, t1, hl1, hfoc1, hp1, hm1⟩ :=
    refocusLoop_finds .Original p z.size 0 z (z.size + 2) hwf h0 (by omega) (by omega) hkf
  have hkb : ∃ k zk t, 1 ≤ k ∧ k ≤ z.size + 1 ∧ Zipper.stepN .Reverse k z = some zk ∧
      zk.focus = some t ∧ p t = true := by
    obtain ⟨zk, hstep, hwfk, hszk, htok⟩ :=
      stepN_reverse_toList (if m = 0 then z.size else z.size - m) z hwf
    refine ⟨if m = 0 then z.size else z.size - m, zk, u, by split <;> omega,
      by split <;> omega, hstep, ?_, hu_mem.2⟩
    rw [focus_eq_head zk hwfk, htok, head?_rotate_mod _ hne]
    have hmod : ((if m = 0 then z.size else z.size - m) * (z.size - 1)) % z.toList.length
        = m := by
      rw [length_toList]
      exact rev_rotate_mod z.size m h0 hmn
    rw [hmod, List.getElem?_eq_getElem hm, hum]
  obtain ⟨z2, t2, hl2, hfoc2, hp2, hm2⟩ :=
    refocusLoop_finds .Reverse p z.size 0 z (z.size + 2) hwf h0 (by omega) (by omega) hkb
  have e1 : t1 = u := huval t1 hm1 hp1
  have e2 : t2 = u := huval t2 hm2 hp2
  refine ⟨z1, z2, u, ?_, ?_, e1 ▸ hfoc1, e2 ▸ hfoc2, hu_mem.2⟩
  · simpa [Zipper.refocus] using hl1
  · simpa [Zipper.refocus_backwards] using hl2

/-- Witness for the amended claim C6 at the concrete input `[0, 1, 2]` with the
predicate matching exactly the element `1`. -/
theorem c6_unique_match_agree_witness :
    (Zipper.fromList [0, 1, 2]).Wf ∧ 0 < (Zipper.fromList [0, 1, 2]).size ∧
    ((Zipper.fromList [0, 1, 2]).toList.countP fun x => x == 1) = 1 ∧
    (∃ z1 z2 t, (Zipper.fromList [0, 1, 2]).refocus (fun x => x == 1) = some z1 ∧
      (Zipper.fromList [0, 1, 2]).refocus_backwards (fun x => x == 1) = some z2 ∧
      z1.focus = some t ∧ z2.focus = some t ∧ (fun x => x == 1) t = true) :=
  ⟨by decide, by decide, by decide,
    c6_unique_match_agree (Zipper.fromList [0, 1, 2]) (fun x => x == 1) (by decide)
      (by decide) (by decide)⟩

/-- Claim C7: on any non-empty well-formed zipper, `step_forwards` followed by
`step_backwards` (and vice versa) restores the full internal state exactly. -/
theorem c7_step_roundtrip (z : Zipper T) (hwf : z.Wf) (h0 : 0 < z.size) :
    ((z.step .Original).bind fun w => w.step .Reverse) = some z ∧
    ((z.step .Reverse).bind fun w => w.step .Original) = some z := by
  obtain ⟨fw, bw⟩ := z
  cases fw with
  | nil =>
    have hb : bw = [] := hwf rfl
    subst hb
    simp [Zipper.size] at h0
  | cons f fs =>
    constructor
    · cases fs with
      | nil =>
        rw [step_original_eq_nil, Option.some_bind,
          step_reverse_eq_nil (bw.reverse ++ [f]) f bw (by simp)]
      | cons g gs =>
        rw [step_original_eq_cons, Option.some_bind, step_reverse_eq_cons]
    · cases bw with
      | nil =>
        obtain ⟨x, xs, hrev⟩ : ∃ x xs, (f :: fs).reverse = x :: xs := by
          cases h : (f :: fs).reverse with
          | nil => exact absurd (List.reverse_eq_nil_iff.mp h) (by simp)
          | cons x xs => exact ⟨x, xs, rfl⟩
        rw [step_reverse_eq_nil (f :: fs) x xs hrev, Option.some_bind, step_original_eq_nil]
        have hback : xs.reverse ++ [x] = f :: fs := by
          have h := congrArg List.reverse hrev
          simpa using h.symm
        rw [hback]
      | cons b bs =>
        rw [step_reverse_eq_cons, Option.some_bind, step_original_eq_cons]

/-- Witness for claim C7 at the concrete input `[1, 2, 3]`. -/
theorem c7_step_roundtrip_witness :
    (Zipper.fromList [1, 2, 3]).Wf ∧ 0 < (Zipper.fromList [1, 2, 3]).size ∧
    (((Zipper.fromList [1, 2, 3]).step .Original).bind fun w => w.step .Reverse) =
      some (Zipper.fromList [1, 2, 3]) ∧
    (((Zipper.fromList [1, 2, 3]).step .Reverse).bind fun w => w.step .Original) =
      some (Zipper.fromList [1, 2, 3]) :=
  ⟨by decide, by decide,
    (c7_step_roundtrip (Zipper.fromList [1, 2, 3]) (by decide) (by decide)).1,
    (c7_step_roundtrip (Zipper.fromList [1, 2, 3]) (by decide) (by decide)).2⟩

/-- Claim C8: for any non-empty zipper and any signed index `i`, `ith i` equals
`ith (i - size)` and `ith (i + size)`, and the returned element is always
present (`some`, with no panic). -/
theorem c8_ith_wraparound (z : Zipper T) (h0 : 0 < z.size) (i : Int) :
    z.ith i = z.ith (i - (z.size : Int)) ∧ z.ith i = z.ith (i + (z.size : Int)) ∧
    ∃ t, z.ith i = some (some t) := by
  have hsub : (i - (z.size : Int)) % (z.size : Int) = i % (z.size : Int) := by
    have h := Int.add_mul_emod_self_left (i - (z.size : Int)) (z.size : Int) 1
    rw [mul_one, sub_add_cancel] at h
    exact h.symm
  have hadd : (i + (z.size : Int)) % (z.size : Int) = i % (z.size : Int) := by
    have h := Int.add_mul_emod_self_left i (z.size : Int) 1
    rw [mul_one] at h
    exact h
  refine ⟨?_, ?_, ith_isSome z h0 i⟩
  · rw [ith_eq z h0, ith_eq z h0, hsub]
  · rw [ith_eq z h0, ith_eq z h0, hadd]

/-- Witness for claim C8 at the concrete input `[5, 6]` with `i = 7`. -/
theorem c8_ith_wraparound_witness :
    0 < (Zipper.fromList [5, 6]).size ∧
    ((Zipper.fromList [5, 6]).ith 7 =
        (Zipper.fromList [5, 6]).ith (7 - ((Zipper.fromList [5, 6]).size : Int)) ∧
      (Zipper.fromList [5, 6]).ith 7 =
        (Zipper.fromList [5, 6]).ith (7 + ((Zipper.fromList [5, 6]).size : Int)) ∧
      ∃ t, (Zipper.fromList [5, 6]).ith 7 = some (some t)) :=
  ⟨by decide, c8_ith_wraparound (Zipper.fromList [5, 6]) (by decide) 7⟩

/-- Claim C9: for any non-empty zipper, `reset_end` is idempotent (a second
`reset_end` returns exactly the same state, hence the same focus), and
`reset_start` after `reset_start` likewise changes nothing. -/
theorem c9_reset_idempotent (z : Zipper T) (h0 : 0 < z.size) :
    (∃ z1, z.reset_end = some z1 ∧ z1.reset_end = some z1) ∧
    z.reset_start.reset_start = z.reset_start := by
  constructor
  · have hne : z.forward.reverse ++ z.backward ≠ [] := by
      intro h
      rw [List.append_eq_nil, List.reverse_eq_nil_iff] at h
      simp [Zipper.size, h.1, h.2] at h0
    obtain ⟨x, xs, hcons⟩ : ∃ x xs, z.forward.reverse ++ z.backward = x :: xs := by
      cases hc : z.forward.reverse ++ z.backward with
      | nil => exact absurd hc hne
      | cons x xs => exact ⟨x, xs, rfl⟩
    refine ⟨⟨[x], xs⟩, ?_, ?_⟩
    · unfold Zipper.reset_end
      rw [raw_reset_end_eq, hcons]
      exact step_reverse_eq_cons [] x xs
    · unfold Zipper.reset_end
      rw [raw_reset_end_eq]
      simp only [List.reverse_cons, List.reverse_nil, List.nil_append, List.singleton_append]
      exact step_reverse_eq_cons [] x xs
  · rw [reset_start_eq, reset_start_eq]
    simp

/-- Witness for claim C9 at the concrete input `[0, 1, 2]`. -/
theorem c9_reset_idempotent_witness :
    0 < (Zipper.fromList [0, 1, 2]).size ∧
    ((∃ z1, (Zipper.fromList [0, 1, 2]).reset_end = some z1 ∧ z1.reset_end = some z1) ∧
      (Zipper.fromList [0, 1, 2]).reset_start.reset_start =
        (Zipper.fromList [0, 1, 2]).reset_start) :=
  ⟨by decide, c9_reset_idempotent (Zipper.fromList [0, 1, 2]) (by decide)⟩

/-- Claim C10: after `push_focus e`, the new element `e` is the focus, and the
previously focused element (when one existed) is at `ith 1`. -/
theorem c10_push_focus (z : Zipper T) (e : T) :
    (z.push_focus e).focus = some e ∧
    ∀ t, z.focus = some t → (z.push_focus e).ith 1 = some (some t) := by
  constructor
  · simp [Zipper.push_focus, Zipper.focus]
  · intro t ht
    cases hf : z.forward with
    | nil => simp [Zipper.focus, hf] at ht
    | cons a l =>
      have ha : a = t := by simpa [Zipper.focus, hf] using ht
      subst ha
      have h0 : 0 < (z.push_focus e).size := by
        simp [Zipper.push_focus, Zipper.size]
      have hsz : 2 ≤ (z.push_focus e).size := by
        simp [Zipper.push_focus, Zipper.size, hf]
        omega
      rw [ith_eq _ h0]
      have hcast : (1 : Int) < ((z.push_focus e).size : Int) := by exact_mod_cast hsz
      have hmod : ((1 : Int) % ((z.push_focus e).size : Int)).toNat = 1 := by
        rw [Int.emod_eq_of_lt (by omega) hcast]
        rfl
      rw [hmod]
      simp [Zipper.push_focus, Zipper.toList, hf]

/-- Witness for claim C10 at the concrete input `[5]` with pushed element `9`. -/
theorem c10_push_focus_witness :
    ((Zipper.fromList [5]).push_focus 9).focus = some 9 ∧
    ((Zipper.fromList [5]).push_focus 9).ith 1 = some (some 5) :=
  ⟨(c10_push_focus (Zipper.fromList [5]) 9).1,
    (c10_push_focus (Zipper.fromList [5]) 9).2 5 (by decide)⟩
